import Mathlib

/-!
Verification of the bullpen usage table generator (`pitchcount.py`).

The source program builds, per pitcher, a timeline of pitch counts aligned
to a dense calendar of days, sorts pitchers by start count and computes
trailing-window sums.  This file embeds the core functions
(`get_games`, `build_pitcher_table`, `sort_pitcher_table`, `pad_dates`,
`sum_recents`, `label_dates`) as Lean definitions and proves the stated
properties about them.

Modelling conventions:
* Calendar dates are day numbers (`Int`); `datetime` values in the source
  are all midnights parsed from `%Y-%m-%d` strings, so subtraction of two
  of them yields an exact whole-day difference and adding `timedelta(days=1)`
  is `+ 1`.
* Python `dict`s (which preserve insertion order) are association lists
  `List (Nat × β)`; `d[k] = v` is `dictInsert`, in-place value update is
  `dictModify`, `k in d` is `dictMem`, lookup is `dictGetD`.
* A timeline cell is either an integer pitch count or the `NO_PITCHES`
  sentinel string `"-"`; `sum_recents`'s `type(x) is int` test becomes a
  match on the `Cell` constructor.
* `raise Exception(msg)` becomes `Except.error msg`.
-/

namespace Bullpen

/-- A timeline cell: an integer pitch count, or the `NO_PITCHES` sentinel
(the string `"-"` in the source, used when a pitcher did not pitch). -/
inductive Cell where
  | count (n : Int)
  | noPitches
deriving DecidableEq, Repr

/-- Python `d[k] = v` on an insertion-ordered dict: replace the value at the
first occurrence of `k`, else append `(k, v)` at the end. -/
def dictInsert (k : Nat) (v : β) : List (Nat × β) → List (Nat × β)
  | [] => [(k, v)]
  | e :: rest => if e.1 = k then (k, v) :: rest else e :: dictInsert k v rest

/-- Python `k in d`. -/
def dictMem (d : List (Nat × β)) (k : Nat) : Bool :=
  d.any (fun e => e.1 = k)

/-- Python `d[k]` with a default for absent keys (every lookup in the source
happens at a key known to be present). -/
def dictGetD (d : List (Nat × β)) (k : Nat) (v : β) : β :=
  match d with
  | [] => v
  | e :: rest => if e.1 = k then e.2 else dictGetD rest k v

/-- Python `d[k] = f(d[k])` (e.g. `d[k] += 1`, `d[k].append(x)`): update the
value at the first occurrence of `k`; no-op when `k` is absent. -/
def dictModify (f : β → β) (k : Nat) : List (Nat × β) → List (Nat × β)
  | [] => []
  | e :: rest => if e.1 = k then (e.1, f e.2) :: rest else e :: dictModify f k rest

/-- One game from the fetched schedule, as consumed by `get_games`. -/
structure SchedGame where
  game_id : Nat
  game_date : Int
  game_num : Nat
  status : String
deriving DecidableEq, Repr

/-- `get_games` (source lines 61-81): filter the schedule keeping a game when
its status is `'Final'` or the `INCLUDE_CURRENT` flag is true, building the
dict `game_id ↦ (game_date, game_num)` in schedule order.  The global
`INCLUDE_CURRENT` is the `include_current` parameter. -/
def get_games (include_current : Bool) (schedule : List SchedGame) :
    List (Nat × Int × Nat) :=
  schedule.foldl
    (fun games g =>
      if g.status = "Final" ∨ include_current = true then
        dictInsert g.game_id (g.game_date, g.game_num) games
      else games)
    []

/-- The inner scan of one game's appearance list in `build_pitcher_table`
(source lines 146-156): `nth` counts items; a tracked pitcher's pitch count
is appended to its timeline, and its start count is incremented when the
appearance is the game's first item (`nth == 0`). -/
def processGame (pg : List (Nat × List Cell)) (ps : List (Nat × Int)) :
    List (Nat × Int) → Nat → List (Nat × List Cell) × List (Nat × Int)
  | [], _ => (pg, ps)
  | item :: rest, nth =>
    if dictMem pg item.1 then
      let pg1 := dictModify (fun tl => tl ++ [Cell.count item.2]) item.1 pg
      let ps1 := if nth = 0 then dictModify (fun s => s + 1) item.1 ps else ps
      processGame pg1 ps1 rest (nth + 1)
    else
      processGame pg ps rest (nth + 1)

/-- The "record zero pitches" pass of `build_pitcher_table` (source lines
157-160): every pitcher whose timeline still has length `counter` gets the
`NO_PITCHES` sentinel appended. -/
def recordZero (counter : Nat) (pg : List (Nat × List Cell)) :
    List (Nat × List Cell) :=
  pg.map (fun e => if e.2.length = counter then (e.1, e.2 ++ [Cell.noPitches]) else e)

/-- The game loop of `build_pitcher_table` (source lines 144-161): process the
games in order, threading the timelines, start counts and the game counter. -/
def buildLoop (pg : List (Nat × List Cell)) (ps : List (Nat × Int)) (counter : Nat) :
    List (List (Nat × Int)) → List (Nat × List Cell) × List (Nat × Int)
  | [] => (pg, ps)
  | g :: rest =>
    let s := processGame pg ps g 0
    buildLoop (recordZero counter s.1) s.2 (counter + 1) rest

/-- The unsorted part of `build_pitcher_table` (source lines 137-161): the
initial dicts map every tracked pitcher to `[]` and `0`, then the game loop
runs.  `games_pitches` is the ordered list of per-game appearance lists
`(pitcher_id, n_pitches)`. -/
def build_raw (pitchers : List Nat) (games_pitches : List (List (Nat × Int))) :
    List (Nat × List Cell) × List (Nat × Int) :=
  buildLoop
    (pitchers.foldl (fun d p => dictInsert p [] d) [])
    (pitchers.foldl (fun d p => dictInsert p 0 d) [])
    0 games_pitches

/-- The stable insertion used to model Python's `sorted` (which is documented
to be a stable sort): insert `x` before the first element whose key is not
below `x`'s key, i.e. strictly after every earlier-arrived element with a
key `≤` key of `x` never jumps ahead of an equal key. -/
def sInsert (key : Nat → Int) (x : Nat) : List Nat → List Nat
  | [] => [x]
  | y :: ys => if key x ≤ key y then x :: y :: ys else y :: sInsert key x ys

/-- Stable sort by key, modelling `sorted(keys, key=...)` in
`sort_pitcher_table` (source line 120). -/
def sortByKey (key : Nat → Int) : List Nat → List Nat
  | [] => []
  | x :: xs => sInsert key x (sortByKey key xs)

/-- `sort_pitcher_table` (source lines 115-126): sort the pitcher keys
ascending by start count (stably), then rebuild both dicts in that order. -/
def sort_pitcher_table (pitcher_games : List (Nat × List Cell))
    (pitcher_starts : List (Nat × Int)) :
    List (Nat × List Cell) × List (Nat × Int) :=
  ((sortByKey (fun p => dictGetD pitcher_starts p 0) (pitcher_games.map (·.1))).map
      (fun p => (p, dictGetD pitcher_games p [])),
   (sortByKey (fun p => dictGetD pitcher_starts p 0) (pitcher_games.map (·.1))).map
      (fun p => (p, dictGetD pitcher_starts p 0)))

/-- `build_pitcher_table` (source lines 129-163): build the raw tables, then
sort them by start count. -/
def build_pitcher_table (pitchers : List Nat)
    (games_pitches : List (List (Nat × Int))) :
    List (Nat × List Cell) × List (Nat × Int) :=
  sort_pitcher_table (build_raw pitchers games_pitches).1
    (build_raw pitchers games_pitches).2

/-- Total slack of a date list: the sum over adjacent pairs of the number of
missing days (`diff − 1` clamped at zero).  Used only as the termination
measure of the `pad_dates` loop. -/
def slack : List Int → Nat
  | a :: b :: rest => ((b - a) - 1).toNat + slack (b :: rest)
  | _ => 0

theorem insertIdx_eq_take_cons_drop (a : α) :
    ∀ (n : Nat) (l : List α), n ≤ l.length →
      l.insertIdx n a = l.take n ++ a :: l.drop n
  | 0, l, _ => by simp
  | n + 1, [], h => by simp at h
  | n + 1, x :: l, h => by
    simp only [List.insertIdx_succ_cons, List.take_succ_cons, List.drop_succ_cons,
      List.cons_append]
    rw [insertIdx_eq_take_cons_drop a n l (by simpa using h)]

theorem drop_insertIdx_self (a : α) (n : Nat) (l : List α) (h : n ≤ l.length) :
    (l.insertIdx n a).drop n = a :: l.drop n := by
  have ht : (l.take n).length = n := by simp [Nat.min_eq_left h]
  calc (l.insertIdx n a).drop n
      = (l.take n ++ a :: l.drop n).drop (l.take n).length := by
        rw [insertIdx_eq_take_cons_drop a n l h, ht]
    _ = a :: l.drop n := List.drop_left _ _

theorem take_insertIdx_self (a : α) (n : Nat) (l : List α) (h : n ≤ l.length) :
    (l.insertIdx n a).take n = l.take n := by
  have ht : (l.take n).length = n := by simp [Nat.min_eq_left h]
  calc (l.insertIdx n a).take n
      = (l.take n ++ a :: l.drop n).take (l.take n).length := by
        rw [insertIdx_eq_take_cons_drop a n l h, ht]
    _ = l.take n := List.take_left _ _

theorem drop_two (l : List Int) (i : Nat) (h : i + 1 < l.length) :
    l.drop i = l[i] :: l[i + 1] :: l.drop (i + 2) := by
  rw [List.drop_eq_getElem_cons (by omega), List.drop_eq_getElem_cons h]

theorem slack_cons_cons (a b : Int) (rest : List Int) :
    slack (a :: b :: rest) = ((b - a) - 1).toNat + slack (b :: rest) := rfl

set_option maxHeartbeats 1000000 in
/-- The gap-insertion while loop of `pad_dates` (source lines 177-186): at
index `i`, when the day difference between `dates[i+1]` and `dates[i]`
exceeds one, insert `dates[i] + 1` into the calendar at `i + 1` and the
`NO_PITCHES` sentinel into every pitcher's timeline at `i + 1`; then
advance `i` (so the newly created boundary is re-examined next). -/
def padLoop (dates : List Int) (tls : List (Nat × List Cell)) (i : Nat) :
    List Int × List (Nat × List Cell) :=
  if h : i + 1 < dates.length then
    if dates[i + 1] - dates[i] > 1 then
      padLoop (dates.insertIdx (i + 1) (dates[i] + 1))
        (tls.map (fun e => (e.1, e.2.insertIdx (i + 1) Cell.noPitches)))
        (i + 1)
    else
      padLoop dates tls (i + 1)
  else (dates, tls)
termination_by 2 * slack (dates.drop i) + (dates.length - i)
decreasing_by
  · have hlen : (dates.insertIdx (i + 1) (dates[i] + 1)).length = dates.length + 1 :=
      List.length_insertIdx _ _ (by omega)
    have hdrop : (dates.insertIdx (i + 1) (dates[i] + 1)).drop (i + 1)
        = (dates[i] + 1) :: dates.drop (i + 1) :=
      drop_insertIdx_self _ _ _ (by omega)
    have h2 : dates.drop (i + 1) = dates[i + 1] :: dates.drop (i + 2) :=
      List.drop_eq_getElem_cons h
    have h1 : dates.drop i = dates[i] :: dates[i + 1] :: dates.drop (i + 2) :=
      drop_two dates i h
    rw [hlen, hdrop, h2, h1]
    simp only [slack_cons_cons]
    omega
  · have h1 : dates.drop i = dates[i] :: dates[i + 1] :: dates.drop (i + 2) :=
      drop_two dates i h
    have h2 : dates.drop (i + 1) = dates[i + 1] :: dates.drop (i + 2) :=
      List.drop_eq_getElem_cons h
    rw [h1, h2]
    simp only [slack_cons_cons]
    omega

/-- `pad_dates` (source lines 166-187): extract the game days from the games
dict (`games[game][0]`, here the `Int` day number standing for the parsed
`%Y-%m-%d` date), deep-copy the timelines, and run the gap-insertion loop
from index 0. -/
def pad_dates (games : List (Nat × Int × Nat))
    (pitcher_games : List (Nat × List Cell)) :
    List Int × List (Nat × List Cell) :=
  padLoop (games.map (fun g => g.2.1)) pitcher_games 0

/-- Modelled from the spec: `day.strftime("%m-%d")` in `label_dates` is
external standard-library date rendering (no calendar logic lives in the
repository); it is modelled as a plain rendering of the day number. -/
def fmtDate (d : Int) : String := toString d

/-- The label-fixing loop of `label_dates` (source lines 220-223): for each
index, when the date equals the next one, append `"(1)"` to this label and
`"(2)"` to the next one. -/
def labelLoop (dates : List Int) (labels : List String) (i : Nat) : List String :=
  if h : i < labels.length then
    labelLoop dates
      (if i < dates.length - 1 ∧ dates.getD i 0 = dates.getD (i + 1) 0 then
        ((labels.set i (labels.getD i "" ++ "(1)")).set (i + 1)
          ((labels.set i (labels.getD i "" ++ "(1)")).getD (i + 1) "" ++ "(2)"))
      else labels)
      (i + 1)
  else labels
termination_by labels.length - i
decreasing_by
  split
  · simp only [List.length_set]
    omega
  · omega

/-- `label_dates` (source lines 210-224): format every date, then run the
doubleheader-suffix loop. -/
def label_dates (dates : List Int) : List String :=
  labelLoop dates (dates.map fmtDate) 0

/-- The summing loop of `sum_recents` (source lines 202-206): starting at
`len - n_days`, add every cell that is an `int`; sentinels are skipped.
The loop over indices `len - n_days, …, len - 1` is the traversal of
`pitch_counts.drop (len - n_days)`. -/
def sumTail : List Cell → Int
  | [] => 0
  | Cell.count n :: rest => n + sumTail rest
  | Cell.noPitches :: rest => sumTail rest

/-- `sum_recents` (source lines 190-207): reject `n_days < 1`, then reject
`n_days` exceeding the timeline length, else sum the integer cells among the
last `n_days` entries. -/
def sum_recents (pitch_counts : List Cell) (n_days : Int) : Except String Int :=
  if n_days < 1 then Except.error "n_days must be greater than zero"
  else if n_days > (pitch_counts.length : Int) then
    Except.error "Cannot sum more games than available in player data pull"
  else
    Except.ok (sumTail (pitch_counts.drop (pitch_counts.length - n_days.toNat)))

/-- The integer value of a cell, if it is one. -/
def cellInt : Cell → Option Int
  | Cell.count n => some n
  | Cell.noPitches => none

/-- Replace the sentinel by the integer 0 (used to state claim C3). -/
def desentinel : Cell → Cell
  | Cell.noPitches => Cell.count 0
  | c => c

/-- The trailing sum as the spec words it: "the sum of all integer cells
among the last N entries" of the timeline. -/
def specTrailingSum (tl : List Cell) (n : Nat) : Int :=
  (((tl.drop (tl.length - n)).filterMap cellInt)).sum

theorem sumTail_eq_filterMap : ∀ l : List Cell, sumTail l = (l.filterMap cellInt).sum
  | [] => rfl
  | Cell.count n :: rest => by
    simp [sumTail, cellInt, List.filterMap_cons, sumTail_eq_filterMap rest]
  | Cell.noPitches :: rest => by
    simp [sumTail, cellInt, List.filterMap_cons, sumTail_eq_filterMap rest]

theorem sumTail_map_desentinel : ∀ l : List Cell, sumTail (l.map desentinel) = sumTail l
  | [] => rfl
  | Cell.count n :: rest => by
    simp [sumTail, desentinel, sumTail_map_desentinel rest]
  | Cell.noPitches :: rest => by
    simp [sumTail, desentinel, sumTail_map_desentinel rest]

/-- C3: for a window `1 ≤ N ≤ length`, `sum_recents` returns the sum of the
integer cells among the last `N` entries, and replacing every sentinel by the
integer 0 leaves the result unchanged. -/
theorem claim_C3 (tl : List Cell) (n : Int)
    (h1 : 1 ≤ n) (h2 : n ≤ (tl.length : Int)) :
    sum_recents tl n = Except.ok (specTrailingSum tl n.toNat) ∧
      sum_recents (tl.map desentinel) n = sum_recents tl n := by
  have hn1 : ¬ n < 1 := by omega
  have hn2 : ¬ n > (tl.length : Int) := by omega
  have hn2m : ¬ n > ((tl.map desentinel).length : Int) := by
    simpa using hn2
  constructor
  · simp only [sum_recents, if_neg hn1, if_neg hn2, specTrailingSum,
      sumTail_eq_filterMap]
  · simp only [sum_recents, if_neg hn1, if_neg hn2, if_neg hn2m,
      List.length_map, ← List.map_drop, sumTail_map_desentinel]

theorem claim_C3_witness :
    ((1 ≤ (3 : Int) ∧ (3 : Int) ≤ (([Cell.count 20, Cell.noPitches, Cell.count 15,
        Cell.count 7] : List Cell).length : Int)) ∧
      (sum_recents [Cell.count 20, Cell.noPitches, Cell.count 15, Cell.count 7] 3 =
          Except.ok (specTrailingSum
            [Cell.count 20, Cell.noPitches, Cell.count 15, Cell.count 7] (3 : Int).toNat) ∧
        sum_recents ([Cell.count 20, Cell.noPitches, Cell.count 15,
            Cell.count 7].map desentinel) 3 =
          sum_recents [Cell.count 20, Cell.noPitches, Cell.count 15, Cell.count 7] 3)) :=
  ⟨⟨by decide, by decide⟩,
    claim_C3 [Cell.count 20, Cell.noPitches, Cell.count 15, Cell.count 7] 3
      (by decide) (by decide)⟩

/-- C4: a window larger than the timeline length is rejected with the
usage-error message, never silently truncated. -/
theorem claim_C4 (tl : List Cell) (n : Int) (h : (tl.length : Int) < n) :
    sum_recents tl n =
      Except.error "Cannot sum more games than available in player data pull" := by
  have hn1 : ¬ n < 1 := by omega
  have hn2 : n > (tl.length : Int) := h
  simp only [sum_recents, if_neg hn1, if_pos hn2]

theorem claim_C4_witness :
    ((([Cell.count 20, Cell.noPitches] : List Cell).length : Int) < 5 ∧
      sum_recents [Cell.count 20, Cell.noPitches] 5 =
        Except.error "Cannot sum more games than available in player data pull") :=
  ⟨by decide, claim_C4 [Cell.count 20, Cell.noPitches] 5 (by decide)⟩

/-- C10: a window size below 1 (zero or negative) is rejected with an error,
not answered with 0. -/
theorem claim_C10 (tl : List Cell) (n : Int) (h : n < 1) :
    sum_recents tl n = Except.error "n_days must be greater than zero" := by
  simp only [sum_recents, if_pos h]

theorem claim_C10_witness :
    ((-2 : Int) < 1 ∧
      sum_recents [Cell.count 20, Cell.noPitches] (-2) =
        Except.error "n_days must be greater than zero") :=
  ⟨by decide, claim_C10 [Cell.count 20, Cell.noPitches] (-2) (by decide)⟩

/-- C9, counterexample: with the include-current flag set, a game whose
status is `"Postponed"` — neither `"Final"` nor `"In Progress"` — is still
returned by `get_games`, so the output is not restricted to final plus
in-progress games. -/
theorem counterexample_C9 :
    get_games true [⟨7, 0, 1, "Postponed"⟩] = [(7, (0, 1))] ∧
      "Postponed" ≠ "Final" ∧ "Postponed" ≠ "In Progress" :=
  ⟨rfl, by decide, by decide⟩

theorem get_games_false_foldl (init : List (Nat × Int × Nat)) :
    ∀ schedule : List SchedGame,
      schedule.foldl
        (fun games g =>
          if g.status = "Final" ∨ (false : Bool) = true then
            dictInsert g.game_id (g.game_date, g.game_num) games
          else games) init =
      (schedule.filter (fun g => g.status = "Final")).foldl
        (fun games g => dictInsert g.game_id (g.game_date, g.game_num) games) init
  | [] => rfl
  | g :: rest => by
    by_cases hg : g.status = "Final"
    · simp only [List.foldl_cons, List.filter_cons]
      rw [if_pos (Or.inl hg), if_pos (by simpa using hg)]
      exact get_games_false_foldl _ rest
    · simp only [List.foldl_cons, List.filter_cons]
      rw [if_neg (by simp [hg]), if_neg (by simpa using hg)]
      exact get_games_false_foldl _ rest

/-- C9, amended: with the flag unset `get_games` keeps exactly the games with
status `"Final"`; with the flag set it keeps every game of the schedule,
whatever its status. -/
theorem claim_C9 (schedule : List SchedGame) :
    get_games false schedule =
      (schedule.filter (fun g => g.status = "Final")).foldl
        (fun games g => dictInsert g.game_id (g.game_date, g.game_num) games) [] ∧
    get_games true schedule =
      schedule.foldl
        (fun games g => dictInsert g.game_id (g.game_date, g.game_num) games) [] := by
  constructor
  · exact get_games_false_foldl [] schedule
  · simp only [get_games]
    congr 1
    funext games g
    rw [if_pos (Or.inr trivial)]

theorem padLoop_length (dates : List Int) (tls : List (Nat × List Cell)) (i : Nat)
    (hlen : ∀ e ∈ tls, (e.2).length = dates.length) :
    ∀ e ∈ (padLoop dates tls i).2, e.2.length = (padLoop dates tls i).1.length := by
  induction dates, tls, i using padLoop.induct with
  | case1 dates tls i h hgt ih =>
    rw [padLoop]
    simp only [dif_pos h, if_pos hgt]
    apply ih
    intro e he
    rcases List.mem_map.1 he with ⟨e0, he0, rfl⟩
    have h0 : e0.2.length = dates.length := hlen e0 he0
    have h1 : (List.insertIdx (i + 1) Cell.noPitches e0.2).length = e0.2.length + 1 :=
      List.length_insertIdx _ _ (by omega)
    have h2 : (List.insertIdx (i + 1) (dates[i] + 1) dates).length = dates.length + 1 :=
      List.length_insertIdx _ _ (by omega)
    simp [h1, h2, h0]
  | case2 dates tls i h hgt ih =>
    rw [padLoop]
    simp only [dif_pos h, if_neg hgt]
    exact ih hlen
  | case3 dates tls i h =>
    rw [padLoop]
    simp only [dif_neg h]
    exact hlen

/-- C1: when every tracked pitcher's timeline has the same length as the game
list, the aligner leaves the calendar and every timeline with equal length
(the sentinel is inserted into every timeline at the index of every synthetic
gap slot). -/
theorem claim_C1 (games : List (Nat × Int × Nat))
    (pitcher_games : List (Nat × List Cell))
    (h : ∀ e ∈ pitcher_games, (e.2).length = games.length) :
    ∀ e ∈ (pad_dates games pitcher_games).2,
      e.2.length = (pad_dates games pitcher_games).1.length := by
  apply padLoop_length
  simpa using h

theorem claim_C1_witness :
    ((∀ e ∈ ([(1, [Cell.count 3, Cell.count 4])] : List (Nat × List Cell)),
        e.2.length = ([(7, 0, 1), (8, 2, 1)] : List (Nat × Int × Nat)).length) ∧
      ∀ e ∈ (pad_dates [(7, 0, 1), (8, 2, 1)] [(1, [Cell.count 3, Cell.count 4])]).2,
        e.2.length =
          (pad_dates [(7, 0, 1), (8, 2, 1)] [(1, [Cell.count 3, Cell.count 4])]).1.length) :=
  ⟨by decide,
    claim_C1 [(7, 0, 1), (8, 2, 1)] [(1, [Cell.count 3, Cell.count 4])] (by decide)⟩

theorem mem_sInsert (key : Nat → Int) (x z : Nat) :
    ∀ l : List Nat, z ∈ sInsert key x l ↔ z = x ∨ z ∈ l
  | [] => by simp [sInsert]
  | y :: ys => by
    by_cases hxy : key x ≤ key y
    · simp [sInsert, if_pos hxy]
    · simp only [sInsert, if_neg hxy, List.mem_cons, mem_sInsert key x z ys]
      tauto

theorem pairwise_sInsert (key : Nat → Int) (x : Nat) :
    ∀ l : List Nat, l.Pairwise (fun a b => key a ≤ key b) →
      (sInsert key x l).Pairwise (fun a b => key a ≤ key b)
  | [], _ => by simp [sInsert]
  | y :: ys, hp => by
    rcases List.pairwise_cons.1 hp with ⟨hy, hys⟩
    by_cases hxy : key x ≤ key y
    · simp only [sInsert, if_pos hxy]
      refine List.pairwise_cons.2 ⟨?_, hp⟩
      intro z hz
      rcases List.mem_cons.1 hz with rfl | hz
      · exact hxy
      · exact le_trans hxy (hy z hz)
    · simp only [sInsert, if_neg hxy]
      refine List.pairwise_cons.2 ⟨?_, pairwise_sInsert key x ys hys⟩
      intro z hz
      rcases (mem_sInsert key x z ys).1 hz with rfl | hz
      · omega
      · exact hy z hz

theorem pairwise_sortByKey (key : Nat → Int) :
    ∀ l : List Nat, (sortByKey key l).Pairwise (fun a b => key a ≤ key b)
  | [] => by simp [sortByKey]
  | x :: xs => pairwise_sInsert key x _ (pairwise_sortByKey key xs)

theorem filter_sInsert (key : Nat → Int) (x : Nat) (c : Int) :
    ∀ l : List Nat,
      (sInsert key x l).filter (fun p => decide (key p = c)) =
        if key x = c then x :: l.filter (fun p => decide (key p = c))
        else l.filter (fun p => decide (key p = c))
  | [] => by
    by_cases hx : key x = c <;> simp [sInsert, List.filter_cons, hx]
  | y :: ys => by
    by_cases hxy : key x ≤ key y
    · rw [sInsert, if_pos hxy]
      by_cases hx : key x = c <;> simp [List.filter_cons, hx]
    · simp only [sInsert, if_neg hxy, List.filter_cons, filter_sInsert key x c ys]
      by_cases hx : key x = c
      · have hy : ¬ key y = c := by omega
        simp [hx, hy]
      · simp [hx]

theorem filter_sortByKey (key : Nat → Int) (c : Int) :
    ∀ l : List Nat,
      (sortByKey key l).filter (fun p => decide (key p = c)) =
        l.filter (fun p => decide (key p = c))
  | [] => rfl
  | x :: xs => by
    rw [sortByKey, filter_sInsert key x c (sortByKey key xs),
      filter_sortByKey key c xs, List.filter_cons]
    by_cases hx : key x = c <;> simp [hx]

theorem sInsert_of_le (key : Nat → Int) (x : Nat) (l : List Nat)
    (h : ∀ z ∈ l, key x ≤ key z) : sInsert key x l = x :: l := by
  cases l with
  | nil => rfl
  | cons y ys => simp [sInsert, if_pos (h y (by simp))]

theorem sortByKey_of_pairwise (key : Nat → Int) :
    ∀ l : List Nat, l.Pairwise (fun a b => key a ≤ key b) → sortByKey key l = l
  | [], _ => rfl
  | x :: xs, hp => by
    rcases List.pairwise_cons.1 hp with ⟨hx, hxs⟩
    rw [sortByKey, sortByKey_of_pairwise key xs hxs, sInsert_of_le key x xs hx]

theorem sInsert_congr (key1 key2 : Nat → Int) (x : Nat) :
    ∀ l : List Nat, key1 x = key2 x → (∀ p ∈ l, key1 p = key2 p) →
      sInsert key1 x l = sInsert key2 x l
  | [], _, _ => rfl
  | y :: ys, hx, hl => by
    have hy : key1 y = key2 y := hl y (by simp)
    have hys : ∀ p ∈ ys, key1 p = key2 p := fun p hp => hl p (by simp [hp])
    simp only [sInsert, hx, hy, sInsert_congr key1 key2 x ys hx hys]

theorem mem_sortByKey (key : Nat → Int) (z : Nat) :
    ∀ l : List Nat, z ∈ sortByKey key l ↔ z ∈ l
  | [] => Iff.rfl
  | x :: xs => by
    rw [sortByKey, mem_sInsert key x z (sortByKey key xs),
      mem_sortByKey key z xs]
    simp

theorem sortByKey_congr (key1 key2 : Nat → Int) :
    ∀ l : List Nat, (∀ p ∈ l, key1 p = key2 p) →
      sortByKey key1 l = sortByKey key2 l
  | [], _ => rfl
  | x :: xs, h => by
    have hxs : ∀ p ∈ xs, key1 p = key2 p := fun p hp => h p (by simp [hp])
    rw [sortByKey, sortByKey, sortByKey_congr key1 key2 xs hxs,
      sInsert_congr key1 key2 x _ (h x (by simp))]
    intro p hp
    exact h p (by simp [(mem_sortByKey key2 p xs).1 hp])

theorem getD_map_self (f : Nat → β) (d : β) (p : Nat) :
    ∀ l : List Nat, p ∈ l → dictGetD (l.map (fun q => (q, f q))) p d = f p
  | q :: rest, hp => by
    by_cases hq : q = p
    · subst hq; simp [dictGetD]
    · rcases List.mem_cons.1 hp with rfl | hp
      · exact absurd rfl hq
      · simp only [List.map_cons, dictGetD, if_neg hq]
        exact getD_map_self f d p rest hp

theorem map_fst_map_pair (f : Nat → β) (l : List Nat) :
    (l.map (fun p => (p, f p))).map (fun e => e.1) = l := by
  simp [List.map_map, Function.comp_def]

/-- C6: `sort_pitcher_table` orders pitchers ascending by start count; ties
keep the input (roster arrival) order (the sub-list at any fixed start count
is unchanged); a pitcher with positive starts is never followed by one with
zero starts; and resorting the already-sorted output returns it unchanged. -/
theorem claim_C6 (pg : List (Nat × List Cell)) (ps : List (Nat × Int)) :
    ((sort_pitcher_table pg ps).1.Pairwise
        (fun a b => dictGetD ps a.1 0 ≤ dictGetD ps b.1 0)) ∧
    (∀ c : Int,
      ((sort_pitcher_table pg ps).1.map (·.1)).filter
          (fun p => decide (dictGetD ps p 0 = c)) =
        (pg.map (·.1)).filter (fun p => decide (dictGetD ps p 0 = c))) ∧
    ((sort_pitcher_table pg ps).1.Pairwise
        (fun a b => 0 < dictGetD ps a.1 0 → 0 < dictGetD ps b.1 0)) ∧
    (sort_pitcher_table (sort_pitcher_table pg ps).1 (sort_pitcher_table pg ps).2 =
      sort_pitcher_table pg ps) := by
  have hpw : (sortByKey (fun p => dictGetD ps p 0) (pg.map (·.1))).Pairwise
      (fun a b => dictGetD ps a 0 ≤ dictGetD ps b 0) :=
    pairwise_sortByKey _ _
  have h1 : (sort_pitcher_table pg ps).1.Pairwise
      (fun a b => dictGetD ps a.1 0 ≤ dictGetD ps b.1 0) := by
    simp only [sort_pitcher_table]
    exact (List.pairwise_map).2 hpw
  refine ⟨h1, ?_, ?_, ?_⟩
  · intro c
    simp only [sort_pitcher_table, map_fst_map_pair]
    exact filter_sortByKey _ c _
  · exact h1.imp (by intro a b hab hpos; omega)
  · simp only [sort_pitcher_table, map_fst_map_pair]
    have hcongr : sortByKey
          (fun p => dictGetD
            ((sortByKey (fun p => dictGetD ps p 0) (pg.map (·.1))).map
              (fun p => (p, dictGetD ps p 0))) p 0)
          (sortByKey (fun p => dictGetD ps p 0) (pg.map (·.1))) =
        sortByKey (fun p => dictGetD ps p 0)
          (sortByKey (fun p => dictGetD ps p 0) (pg.map (·.1))) := by
      apply sortByKey_congr
      intro p hp
      exact getD_map_self (fun q => dictGetD ps q 0) 0 p _ hp
    have hid : sortByKey (fun p => dictGetD ps p 0)
          (sortByKey (fun p => dictGetD ps p 0) (pg.map (·.1))) =
        sortByKey (fun p => dictGetD ps p 0) (pg.map (·.1)) :=
      sortByKey_of_pairwise _ _ hpw
    rw [hcongr, hid]
    simp only [Prod.mk.injEq]
    constructor
    · apply List.map_congr_left
      intro p hp
      have := getD_map_self (fun q => dictGetD pg q []) ([] : List Cell) p _ hp
      simp [this]
    · apply List.map_congr_left
      intro p hp
      have := getD_map_self (fun q => dictGetD ps q 0) (0 : Int) p _ hp
      simp [this]

theorem dictMem_cons (e : Nat × β) (l : List (Nat × β)) (k : Nat) :
    dictMem (e :: l) k = (decide (e.1 = k) || dictMem l k) := rfl

theorem dictGetD_cons (e : Nat × β) (l : List (Nat × β)) (k : Nat) (d : β) :
    dictGetD (e :: l) k d = if e.1 = k then e.2 else dictGetD l k d := rfl

theorem recordZero_cons (c : Nat) (e0 : Nat × List Cell) (rest : List (Nat × List Cell)) :
    recordZero c (e0 :: rest) =
      (if e0.2.length = c then (e0.1, e0.2 ++ [Cell.noPitches]) else e0) ::
        recordZero c rest := rfl

theorem mem_dictInsert (k : Nat) (v : β) :
    ∀ l : List (Nat × β), ∀ e ∈ dictInsert k v l, e = (k, v) ∨ e ∈ l
  | [], e, he => by
    rw [dictInsert] at he
    exact Or.inl (List.mem_singleton.1 he)
  | e0 :: rest, e, he => by
    by_cases h0 : e0.1 = k
    · rw [dictInsert, if_pos h0] at he
      rcases List.mem_cons.1 he with rfl | he
      · exact Or.inl rfl
      · exact Or.inr (by simp [he])
    · rw [dictInsert, if_neg h0] at he
      rcases List.mem_cons.1 he with rfl | he
      · exact Or.inr (by simp)
      · rcases mem_dictInsert k v rest e he with h | h
        · exact Or.inl h
        · exact Or.inr (by simp [h])

theorem mem_dictModify (f : β → β) (k : Nat) :
    ∀ l : List (Nat × β), ∀ e1 ∈ dictModify f k l,
      e1 ∈ l ∨ ∃ e ∈ l, e.1 = k ∧ e1 = (e.1, f e.2)
  | [], e1, he => by simp [dictModify] at he
  | e0 :: rest, e1, he => by
    by_cases h0 : e0.1 = k
    · rw [dictModify, if_pos h0] at he
      rcases List.mem_cons.1 he with rfl | he
      · exact Or.inr ⟨e0, by simp, h0, rfl⟩
      · exact Or.inl (by simp [he])
    · rw [dictModify, if_neg h0] at he
      rcases List.mem_cons.1 he with rfl | he
      · exact Or.inl (by simp)
      · rcases mem_dictModify f k rest e1 he with h | ⟨e, hmem, hk, hv⟩
        · exact Or.inl (by simp [h])
        · exact Or.inr ⟨e, by simp [hmem], hk, hv⟩

theorem dictMem_dictModify (f : β → β) (k k1 : Nat) :
    ∀ l : List (Nat × β), dictMem (dictModify f k l) k1 = dictMem l k1
  | [] => rfl
  | e0 :: rest => by
    by_cases h0 : e0.1 = k
    · rw [dictModify, if_pos h0, dictMem_cons, dictMem_cons]
    · rw [dictModify, if_neg h0, dictMem_cons, dictMem_cons,
        dictMem_dictModify f k k1 rest]

theorem getD_dictModify_self (f : β → β) (k : Nat) (d : β) :
    ∀ l : List (Nat × β), dictMem l k = true →
      dictGetD (dictModify f k l) k d = f (dictGetD l k d)
  | e0 :: rest, hm => by
    by_cases h0 : e0.1 = k
    · rw [dictModify, if_pos h0]
      simp [dictGetD, h0]
    · rw [dictModify, if_neg h0]
      have hm1 : dictMem rest k = true := by
        simpa [dictMem, h0] using hm
      simp only [dictGetD, if_neg h0]
      exact getD_dictModify_self f k d rest hm1

theorem getD_dictModify_ne (f : β → β) (k k1 : Nat) (d : β) (hne : k1 ≠ k) :
    ∀ l : List (Nat × β), dictGetD (dictModify f k l) k1 d = dictGetD l k1 d
  | [] => rfl
  | e0 :: rest => by
    by_cases h0 : e0.1 = k
    · have hne0 : ¬ (e0.1 = k1) := by omega
      rw [dictModify, if_pos h0, dictGetD_cons, dictGetD_cons,
        if_neg (show ¬ ((e0.1, f e0.2).1 = k1) from hne0), if_neg hne0]
    · rw [dictModify, if_neg h0, dictGetD_cons, dictGetD_cons,
        getD_dictModify_ne f k k1 d hne rest]

theorem dictMem_recordZero (c : Nat) (k : Nat) :
    ∀ pg : List (Nat × List Cell), dictMem (recordZero c pg) k = dictMem pg k
  | [] => rfl
  | e0 :: rest => by
    rw [recordZero_cons]
    by_cases hc : e0.2.length = c
    · rw [if_pos hc, dictMem_cons, dictMem_cons, dictMem_recordZero c k rest]
    · rw [if_neg hc, dictMem_cons, dictMem_cons, dictMem_recordZero c k rest]

theorem getD_recordZero (c : Nat) (k : Nat) :
    ∀ pg : List (Nat × List Cell),
      dictGetD (recordZero c pg) k [] =
        (if (dictGetD pg k []).length = c ∧ dictMem pg k = true then
          dictGetD pg k [] ++ [Cell.noPitches]
        else dictGetD pg k [])
  | [] => by simp [recordZero, dictGetD, dictMem]
  | e0 :: rest => by
    rw [recordZero_cons]
    by_cases h0 : e0.1 = k
    · by_cases hc : e0.2.length = c
      · rw [if_pos hc, dictGetD_cons,
          if_pos (show ((e0.1, e0.2 ++ [Cell.noPitches]).1 = k) from h0),
          dictGetD_cons, if_pos h0, dictMem_cons]
        rw [if_pos ⟨hc, by simp [h0]⟩]
      · rw [if_neg hc, dictGetD_cons, if_pos h0, dictGetD_cons, if_pos h0]
        rw [if_neg (by simp [hc])]
    · have hrec := getD_recordZero c k rest
      have hmem : dictMem (e0 :: rest) k = dictMem rest k := by
        rw [dictMem_cons]
        simp [h0]
      by_cases hc : e0.2.length = c
      · rw [if_pos hc, dictGetD_cons,
          if_neg (show ¬ ((e0.1, e0.2 ++ [Cell.noPitches]).1 = k) from h0),
          dictGetD_cons, if_neg h0, hmem, hrec]
      · rw [if_neg hc, dictGetD_cons, if_neg h0, dictGetD_cons, if_neg h0, hmem, hrec]

theorem processGame_fst_mem (k : Nat) :
    ∀ (g : List (Nat × Int)) (pg : List (Nat × List Cell)) (ps : List (Nat × Int)) (nth : Nat),
      dictMem (processGame pg ps g nth).1 k = dictMem pg k
  | [], pg, ps, nth => rfl
  | item :: rest, pg, ps, nth => by
    by_cases hm : dictMem pg item.1 = true
    · rw [processGame, if_pos hm]
      rw [processGame_fst_mem k rest]
      exact dictMem_dictModify _ _ _ pg
    · rw [processGame, if_neg hm]
      exact processGame_fst_mem k rest pg ps (nth + 1)

theorem processGame_lengths :
    ∀ (g : List (Nat × Int)) (pg : List (Nat × List Cell)) (ps : List (Nat × Int))
      (nth c : Nat),
      (g.map Prod.fst).Nodup →
      (∀ e ∈ pg, e.2.length = c ∨ (e.2.length = c + 1 ∧ e.1 ∉ g.map Prod.fst)) →
      ∀ e ∈ (processGame pg ps g nth).1, e.2.length = c ∨ e.2.length = c + 1
  | [], pg, ps, nth, c, hnd, hinv, e, he => by
    rw [processGame] at he
    rcases hinv e he with h | h
    · exact Or.inl h
    · exact Or.inr h.1
  | (q, np) :: rest, pg, ps, nth, c, hnd, hinv, e, he => by
    rw [List.map_cons, List.nodup_cons] at hnd
    by_cases hm : dictMem pg (q, np).1 = true
    · rw [processGame, if_pos hm] at he
      refine processGame_lengths rest _ _ (nth + 1) c hnd.2 ?_ e he
      intro e1 he1
      rcases mem_dictModify _ _ _ e1 he1 with h1 | ⟨e2, hmem2, hk2, hv2⟩
      · rcases hinv e1 h1 with h | ⟨hl, hnotin⟩
        · exact Or.inl h
        · exact Or.inr ⟨hl, fun hin => hnotin (by simp [hin])⟩
      · rcases hinv e2 hmem2 with h | ⟨hl, hnotin⟩
        · subst hv2
          refine Or.inr ⟨by simp [h], ?_⟩
          rw [hk2]
          exact hnd.1
        · exact absurd (by simp [hk2]) hnotin
    · rw [processGame, if_neg hm] at he
      refine processGame_lengths rest _ _ (nth + 1) c hnd.2 ?_ e he
      intro e1 he1
      rcases hinv e1 he1 with h | ⟨hl, hnotin⟩
      · exact Or.inl h
      · exact Or.inr ⟨hl, fun hin => hnotin (by simp [hin])⟩

theorem recordZero_lengths (c : Nat) (pg : List (Nat × List Cell))
    (hinv : ∀ e ∈ pg, e.2.length = c ∨ e.2.length = c + 1) :
    ∀ e ∈ recordZero c pg, e.2.length = c + 1 := by
  intro e he
  rcases List.mem_map.1 he with ⟨e0, he0, rfl⟩
  rcases hinv e0 he0 with h | h
  · rw [if_pos h]
    simp [h]
  · rw [if_neg (by omega)]
    exact h

theorem buildLoop_lengths :
    ∀ (gs : List (List (Nat × Int))) (pg : List (Nat × List Cell))
      (ps : List (Nat × Int)) (c : Nat),
      (∀ g ∈ gs, (g.map Prod.fst).Nodup) →
      (∀ e ∈ pg, e.2.length = c) →
      ∀ e ∈ (buildLoop pg ps c gs).1, e.2.length = c + gs.length
  | [], pg, ps, c, _, hinv, e, he => by
    rw [buildLoop] at he
    simpa using hinv e he
  | g :: rest, pg, ps, c, hnd, hinv, e, he => by
    simp only [buildLoop] at he
    have h1 : ∀ e1 ∈ (processGame pg ps g 0).1, e1.2.length = c ∨ e1.2.length = c + 1 :=
      processGame_lengths g pg ps 0 c (hnd g (by simp))
        (fun e1 he1 => Or.inl (hinv e1 he1))
    have h2 : ∀ e1 ∈ recordZero c (processGame pg ps g 0).1, e1.2.length = c + 1 :=
      recordZero_lengths c _ h1
    have h3 := buildLoop_lengths rest (recordZero c (processGame pg ps g 0).1)
      (processGame pg ps g 0).2 (c + 1) (fun g1 hg1 => hnd g1 (by simp [hg1])) h2 e he
    simp only [List.length_cons]
    omega

theorem init_timelines_empty (pitchers : List Nat) :
    ∀ e ∈ pitchers.foldl (fun d p => dictInsert p ([] : List Cell) d) [],
      e.2.length = 0 := by
  suffices h : ∀ (l : List Nat) (init : List (Nat × List Cell)),
      (∀ e ∈ init, e.2.length = 0) →
      ∀ e ∈ l.foldl (fun d p => dictInsert p [] d) init, e.2.length = 0 from
    h pitchers [] (by simp)
  intro l
  induction l with
  | nil => exact fun init h e he => h e he
  | cons p rest ih =>
    intro init h e he
    simp only [List.foldl_cons] at he
    refine ih (dictInsert p [] init) ?_ e he
    intro e1 he1
    rcases mem_dictInsert p [] init e1 he1 with rfl | h1
    · rfl
    · exact h e1 h1

/-- C5, counterexample to the claim as stated: when one game's appearance
list names the same tracked pitcher twice, that pitcher's timeline grows by
two entries for that game, so after processing the first (and only) game its
length is 2, not 1. -/
theorem counterexample_C5 :
    ∃ e ∈ (build_raw [1] ([[((1 : Nat), (10 : Int)), (1, 5)]].take 1)).1,
      e.2.length ≠ 1 :=
  ⟨(1, [Cell.count 10, Cell.count 5]), by decide, by decide⟩

/-- C5, amended: provided no game's appearance list names the same pitcher
twice, every tracked pitcher's timeline grows by exactly one entry per game:
after the first `k` games are processed, every timeline has length exactly
`k` (in particular all timelines have equal length throughout). -/
theorem claim_C5 (pitchers : List Nat) (games : List (List (Nat × Int)))
    (hnd : ∀ g ∈ games, (g.map Prod.fst).Nodup) :
    ∀ k, k ≤ games.length →
      ∀ e ∈ (build_raw pitchers (games.take k)).1, e.2.length = k := by
  intro k hk e he
  simp only [build_raw] at he
  have h := buildLoop_lengths (games.take k) _ _ 0
    (fun g hg => hnd g (List.take_subset k games hg))
    (init_timelines_empty pitchers) e he
  have hlen : (games.take k).length = k := by
    simp [Nat.min_eq_left hk]
  omega

theorem claim_C5_witness :
    ((∀ g ∈ ([[((1 : Nat), (30 : Int)), (2, 10)]] : List (List (Nat × Int))),
        (g.map Prod.fst).Nodup) ∧
      ∀ k, k ≤ ([[((1 : Nat), (30 : Int)), (2, 10)]] : List (List (Nat × Int))).length →
        ∀ e ∈ (build_raw [1, 2] ([[((1 : Nat), (30 : Int)), (2, 10)]].take k)).1,
          e.2.length = k) :=
  ⟨by decide, claim_C5 [1, 2] [[(1, 30), (2, 10)]] (by decide)⟩

theorem getD_dictInsert_self (k : Nat) (v d : β) :
    ∀ l : List (Nat × β), dictGetD (dictInsert k v l) k d = v
  | [] => by simp [dictInsert, dictGetD]
  | e0 :: rest => by
    by_cases h0 : e0.1 = k
    · rw [dictInsert, if_pos h0, dictGetD_cons, if_pos rfl]
    · rw [dictInsert, if_neg h0, dictGetD_cons, if_neg h0,
        getD_dictInsert_self k v d rest]

theorem getD_dictInsert_ne (k k1 : Nat) (v d : β) (hne : k1 ≠ k) :
    ∀ l : List (Nat × β), dictGetD (dictInsert k v l) k1 d = dictGetD l k1 d
  | [] => by
    rw [dictInsert, dictGetD_cons,
      if_neg (show ¬ ((k, v).1 = k1) from fun hh => hne hh.symm)]
  | e0 :: rest => by
    by_cases h0 : e0.1 = k
    · rw [dictInsert, if_pos h0, dictGetD_cons, dictGetD_cons,
        if_neg (show ¬ ((k, v).1 = k1) by simpa using fun hh => hne hh.symm),
        if_neg (by omega)]
    · rw [dictInsert, if_neg h0, dictGetD_cons, dictGetD_cons,
        getD_dictInsert_ne k k1 v d hne rest]

theorem dictMem_dictInsert (k k1 : Nat) (v : β) :
    ∀ l : List (Nat × β),
      dictMem (dictInsert k v l) k1 = (decide (k = k1) || dictMem l k1)
  | [] => by
    rw [dictInsert, dictMem_cons]
  | e0 :: rest => by
    by_cases h0 : e0.1 = k
    · rw [dictInsert, if_pos h0, dictMem_cons, dictMem_cons]
      by_cases h1 : k = k1
      · simp [h1, h0]
      · simp [h1, h0, show ¬ (e0.1 = k1) by omega]
    · rw [dictInsert, if_neg h0, dictMem_cons, dictMem_cons,
        dictMem_dictInsert k k1 v rest]
      cases hdec : decide (e0.1 = k1) <;> simp [Bool.or_left_comm]

theorem foldl_dictInsert_getD_not_mem (v d : β) (p : Nat) :
    ∀ (l : List Nat) (init : List (Nat × β)), p ∉ l →
      dictGetD (l.foldl (fun dct q => dictInsert q v dct) init) p d =
        dictGetD init p d
  | [], init, _ => rfl
  | q :: rest, init, hp => by
    simp only [List.foldl_cons]
    rw [foldl_dictInsert_getD_not_mem v d p rest _ (fun h => hp (by simp [h])),
      getD_dictInsert_ne q p v d (fun h => hp (by simp [h])) init]

theorem foldl_dictInsert_getD (v d : β) (p : Nat) :
    ∀ (l : List Nat) (init : List (Nat × β)), p ∈ l →
      dictGetD (l.foldl (fun dct q => dictInsert q v dct) init) p d = v
  | q :: rest, init, hp => by
    simp only [List.foldl_cons]
    by_cases hr : p ∈ rest
    · exact foldl_dictInsert_getD v d p rest _ hr
    · have hq : q = p := by
        rcases List.mem_cons.1 hp with h | h
        · exact h.symm
        · exact absurd h hr
      rw [foldl_dictInsert_getD_not_mem v d p rest _ hr, hq,
        getD_dictInsert_self p v d init]

theorem foldl_dictInsert_mem (v : β) (p : Nat) :
    ∀ (l : List Nat) (init : List (Nat × β)), p ∈ l →
      dictMem (l.foldl (fun dct q => dictInsert q v dct) init) p = true
  | q :: rest, init, hp => by
    simp only [List.foldl_cons]
    by_cases hr : p ∈ rest
    · exact foldl_dictInsert_mem v p rest _ hr
    · have hq : q = p := by
        rcases List.mem_cons.1 hp with h | h
        · exact h.symm
        · exact absurd h hr
      suffices hmono : ∀ (l1 : List Nat) (ini : List (Nat × β)),
          dictMem ini p = true →
          dictMem (l1.foldl (fun dct q1 => dictInsert q1 v dct) ini) p = true by
        refine hmono rest _ ?_
        rw [hq, dictMem_dictInsert]
        simp
      intro l1
      induction l1 with
      | nil => exact fun ini h => h
      | cons q1 r1 ih =>
        intro ini h
        simp only [List.foldl_cons]
        refine ih _ ?_
        rw [dictMem_dictInsert, h]
        simp

theorem processGame_snd_of_nth_pos :
    ∀ (g : List (Nat × Int)) (pg : List (Nat × List Cell)) (ps : List (Nat × Int))
      (nth : Nat), nth ≠ 0 → (processGame pg ps g nth).2 = ps
  | [], pg, ps, nth, _ => rfl
  | item :: rest, pg, ps, nth, h => by
    by_cases hm : dictMem pg item.1 = true
    · rw [processGame, if_pos hm, if_neg h]
      exact processGame_snd_of_nth_pos rest _ ps (nth + 1) (by omega)
    · rw [processGame, if_neg hm]
      exact processGame_snd_of_nth_pos rest pg ps (nth + 1) (by omega)

theorem processGame_snd_zero (pg : List (Nat × List Cell)) (ps : List (Nat × Int))
    (item : Nat × Int) (rest : List (Nat × Int)) :
    (processGame pg ps (item :: rest) 0).2 =
      if dictMem pg item.1 = true then dictModify (fun s => s + 1) item.1 ps
      else ps := by
  by_cases hm : dictMem pg item.1 = true
  · rw [processGame, if_pos hm, if_pos rfl, if_pos hm]
    exact processGame_snd_of_nth_pos rest _ _ 1 (by omega)
  · rw [processGame, if_neg hm, if_neg hm]
    exact processGame_snd_of_nth_pos rest pg ps 1 (by omega)

theorem processGame_snd_mem (k : Nat) :
    ∀ (g : List (Nat × Int)) (pg : List (Nat × List Cell)) (ps : List (Nat × Int))
      (nth : Nat), dictMem (processGame pg ps g nth).2 k = dictMem ps k
  | [], pg, ps, nth => rfl
  | item :: rest, pg, ps, nth => by
    by_cases hm : dictMem pg item.1 = true
    · rw [processGame, if_pos hm, processGame_snd_mem k rest]
      by_cases hz : nth = 0
      · rw [if_pos hz, dictMem_dictModify]
      · rw [if_neg hz]
    · rw [processGame, if_neg hm]
      exact processGame_snd_mem k rest pg ps (nth + 1)

theorem processGame_starts (pg : List (Nat × List Cell)) (ps : List (Nat × Int))
    (p : Nat) (hpg : dictMem pg p = true) (hps : dictMem ps p = true) :
    ∀ g : List (Nat × Int),
      dictGetD (processGame pg ps g 0).2 p 0 =
        dictGetD ps p 0 + (if g.head?.map Prod.fst = some p then 1 else 0)
  | [] => by
    rw [processGame]
    simp
  | item :: rest => by
    rw [processGame_snd_zero]
    by_cases hq : item.1 = p
    · rw [if_pos (by rw [hq]; exact hpg), hq,
        getD_dictModify_self _ _ _ ps hps]
      simp [hq]
    · have hhead : ¬ ((item :: rest).head?.map Prod.fst = some p) := by
        simp [hq]
      rw [if_neg hhead]
      by_cases hm : dictMem pg item.1 = true
      · rw [if_pos hm, getD_dictModify_ne _ _ _ _ (fun h => hq h.symm) ps]
        simp
      · rw [if_neg hm]
        simp

theorem processGame_timeline (p : Nat) :
    ∀ (g : List (Nat × Int)) (pg : List (Nat × List Cell)) (ps : List (Nat × Int))
      (nth : Nat), dictMem pg p = true →
      dictGetD (processGame pg ps g nth).1 p [] =
        dictGetD pg p [] ++
          (g.filter (fun a => decide (a.1 = p))).map (fun a => Cell.count a.2)
  | [], pg, ps, nth, _ => by
    rw [processGame]
    simp
  | item :: rest, pg, ps, nth, hpg => by
    by_cases hq : item.1 = p
    · have hm : dictMem pg item.1 = true := by rw [hq]; exact hpg
      rw [processGame, if_pos hm,
        processGame_timeline p rest _ _ (nth + 1) (by rw [dictMem_dictModify]; exact hpg),
        hq, getD_dictModify_self _ _ _ pg hpg]
      rw [List.filter_cons, if_pos (by simp [hq]), List.map_cons]
      simp
    · have hfil : List.filter (fun a => decide (a.1 = p)) (item :: rest) =
          List.filter (fun a => decide (a.1 = p)) rest := by
        rw [List.filter_cons, if_neg (by simp [hq])]
      by_cases hm : dictMem pg item.1 = true
      · rw [processGame, if_pos hm,
          processGame_timeline p rest _ _ (nth + 1) (by rw [dictMem_dictModify]; exact hpg),
          getD_dictModify_ne _ _ _ _ (fun h => hq h.symm) pg, hfil]
      · rw [processGame, if_neg hm,
          processGame_timeline p rest pg ps (nth + 1) hpg, hfil]

theorem buildLoop_snd_mem (k : Nat) :
    ∀ (gs : List (List (Nat × Int))) (pg : List (Nat × List Cell))
      (ps : List (Nat × Int)) (c : Nat),
      dictMem (buildLoop pg ps c gs).2 k = dictMem ps k
  | [], pg, ps, c => rfl
  | g :: rest, pg, ps, c => by
    simp only [buildLoop]
    rw [buildLoop_snd_mem k rest, processGame_snd_mem]

theorem buildLoop_fst_mem (k : Nat) :
    ∀ (gs : List (List (Nat × Int))) (pg : List (Nat × List Cell))
      (ps : List (Nat × Int)) (c : Nat),
      dictMem (buildLoop pg ps c gs).1 k = dictMem pg k
  | [], pg, ps, c => rfl
  | g :: rest, pg, ps, c => by
    simp only [buildLoop]
    rw [buildLoop_fst_mem k rest, dictMem_recordZero, processGame_fst_mem]

theorem buildLoop_starts (p : Nat) :
    ∀ (gs : List (List (Nat × Int))) (pg : List (Nat × List Cell))
      (ps : List (Nat × Int)) (c : Nat),
      dictMem pg p = true → dictMem ps p = true →
      dictGetD (buildLoop pg ps c gs).2 p 0 =
        dictGetD ps p 0 +
          (gs.countP (fun g => decide (g.head?.map Prod.fst = some p)) : Int)
  | [], pg, ps, c, _, _ => by
    rw [buildLoop]
    simp
  | g :: rest, pg, ps, c, hpg, hps => by
    simp only [buildLoop]
    rw [buildLoop_starts p rest _ _ (c + 1)
        (by rw [dictMem_recordZero, processGame_fst_mem]; exact hpg)
        (by rw [processGame_snd_mem]; exact hps)]
    cases g with
    | nil =>
      rw [show processGame pg ps [] 0 = (pg, ps) from rfl]
      rw [List.countP_cons]
      simp
    | cons item grest =>
      rw [processGame_starts pg ps p hpg hps (item :: grest), List.countP_cons]
      by_cases hq : (item :: grest).head?.map Prod.fst = some p
      · rw [if_pos hq]
        simp only [hq]
        simp
        omega
      · rw [if_neg hq]
        simp only [decide_eq_true_eq]
        rw [if_neg hq]
        simp

theorem filterMap_cellInt_counts :
    ∀ l : List (Nat × Int),
      (l.map (fun a => Cell.count a.2)).filterMap cellInt = l.map (fun a => a.2)
  | [] => rfl
  | a :: rest => by
    simp [List.filterMap_cons, cellInt, filterMap_cellInt_counts rest]

theorem buildLoop_timeline (p : Nat) :
    ∀ (gs : List (List (Nat × Int))) (pg : List (Nat × List Cell))
      (ps : List (Nat × Int)) (c : Nat),
      dictMem pg p = true →
      (dictGetD (buildLoop pg ps c gs).1 p []).filterMap cellInt =
        (dictGetD pg p []).filterMap cellInt ++
          (gs.map (fun g =>
            (g.filter (fun a => decide (a.1 = p))).map (fun a => a.2))).flatten
  | [], pg, ps, c, _ => by
    rw [buildLoop]
    simp
  | g :: rest, pg, ps, c, hpg => by
    simp only [buildLoop]
    rw [buildLoop_timeline p rest _ _ (c + 1)
        (by rw [dictMem_recordZero, processGame_fst_mem]; exact hpg)]
    have hmem1 : dictMem (processGame pg ps g 0).1 p = true := by
      rw [processGame_fst_mem]; exact hpg
    have hrz := getD_recordZero c p (processGame pg ps g 0).1
    have hfm : (dictGetD (recordZero c (processGame pg ps g 0).1) p []).filterMap cellInt =
        (dictGetD (processGame pg ps g 0).1 p []).filterMap cellInt := by
      rw [hrz]
      by_cases hc : (dictGetD (processGame pg ps g 0).1 p []).length = c ∧
          dictMem (processGame pg ps g 0).1 p = true
      · rw [if_pos hc, List.filterMap_append]
        simp [cellInt]
      · rw [if_neg hc]
    rw [hfm, processGame_timeline p g pg ps 0 hpg, List.filterMap_append,
      filterMap_cellInt_counts]
    simp [List.append_assoc]

theorem dictMem_iff_mem_map (l : List (Nat × β)) (k : Nat) :
    dictMem l k = true ↔ k ∈ l.map Prod.fst := by
  simp only [dictMem, List.any_eq_true, List.mem_map, decide_eq_true_eq]

/-- C8: for a tracked pitcher, the start count produced by the table builder
equals the number of games whose first listed appearance (lineup position 0)
is that pitcher; the pitcher's timeline, with sentinels removed, is exactly
the concatenation, game by game in input order, of the pitch counts of that
pitcher's appearances; and the final sorted table reports that same start
count. -/
theorem claim_C8 (pitchers : List Nat) (games : List (List (Nat × Int)))
    (p : Nat) (hp : p ∈ pitchers) :
    dictGetD (build_raw pitchers games).2 p 0 =
      (games.countP (fun g => decide (g.head?.map Prod.fst = some p)) : Int) ∧
    (dictGetD (build_raw pitchers games).1 p []).filterMap cellInt =
      (games.map (fun g =>
        (g.filter (fun a => decide (a.1 = p))).map (fun a => a.2))).flatten ∧
    dictGetD (build_pitcher_table pitchers games).2 p 0 =
      dictGetD (build_raw pitchers games).2 p 0 := by
  have hpg0 : dictMem
      (pitchers.foldl (fun d q => dictInsert q ([] : List Cell) d) []) p = true :=
    foldl_dictInsert_mem [] p pitchers [] hp
  have hps0 : dictMem
      (pitchers.foldl (fun d q => dictInsert q (0 : Int) d) []) p = true :=
    foldl_dictInsert_mem 0 p pitchers [] hp
  have hg0 : dictGetD
      (pitchers.foldl (fun d q => dictInsert q ([] : List Cell) d) []) p [] = [] :=
    foldl_dictInsert_getD [] [] p pitchers [] hp
  have hs0 : dictGetD
      (pitchers.foldl (fun d q => dictInsert q (0 : Int) d) []) p 0 = 0 :=
    foldl_dictInsert_getD 0 0 p pitchers [] hp
  refine ⟨?_, ?_, ?_⟩
  · simp only [build_raw]
    rw [buildLoop_starts p games _ _ 0 hpg0 hps0, hs0]
    simp
  · simp only [build_raw]
    rw [buildLoop_timeline p games _ _ 0 hpg0, hg0]
    simp
  · have hmemraw : dictMem (build_raw pitchers games).1 p = true := by
      simp only [build_raw]
      rw [buildLoop_fst_mem]
      exact hpg0
    have hmemsort : p ∈ sortByKey
        (fun q => dictGetD (build_raw pitchers games).2 q 0)
        ((build_raw pitchers games).1.map (·.1)) := by
      rw [mem_sortByKey]
      exact (dictMem_iff_mem_map _ p).1 hmemraw
    simp only [build_pitcher_table, sort_pitcher_table]
    exact getD_map_self (fun q => dictGetD (build_raw pitchers games).2 q 0) 0 p
      _ hmemsort

theorem claim_C8_witness :
    ((1 : Nat) ∈ ([1, 2] : List Nat) ∧
      (dictGetD (build_raw [1, 2] [[(1, 30), (2, 10)], [(3, 40)]]).2 1 0 =
        (([[((1 : Nat), (30 : Int)), (2, 10)], [(3, 40)]].countP
          (fun g => decide (g.head?.map Prod.fst = some 1))) : Int) ∧
      (dictGetD (build_raw [1, 2] [[(1, 30), (2, 10)], [(3, 40)]]).1 1 []).filterMap
          cellInt =
        (([[((1 : Nat), (30 : Int)), (2, 10)], [(3, 40)]].map (fun g =>
          (g.filter (fun a => decide (a.1 = 1))).map (fun a => a.2)))).flatten ∧
      dictGetD (build_pitcher_table [1, 2] [[(1, 30), (2, 10)], [(3, 40)]]).2 1 0 =
        dictGetD (build_raw [1, 2] [[(1, 30), (2, 10)], [(3, 40)]]).2 1 0)) :=
  ⟨by decide, claim_C8 [1, 2] [[(1, 30), (2, 10)], [(3, 40)]] 1 (by decide)⟩

theorem getLast_take (l : List Int) (i : Nat) (h : i < l.length) :
    (l.take (i + 1)).getLast? = some l[i] := by
  rw [List.take_succ, List.getElem?_eq_getElem h,
    show (some l[i]).toList = [l[i]] from rfl]
  exact List.getLast?_concat _

theorem head_drop (l : List Int) (i : Nat) (h : i < l.length) :
    (l.drop i).head? = some l[i] := by
  rw [List.drop_eq_getElem_cons h]
  rfl

theorem take_succ_eq (l : List Int) (i : Nat) (h : i < l.length) :
    l.take (i + 1) = l.take i ++ [l[i]] := by
  rw [List.take_succ, List.getElem?_eq_getElem h]
  rfl

theorem take_insertIdx_succ (l : List Int) (i : Nat) (x : Int) (h : i + 1 ≤ l.length) :
    (l.insertIdx (i + 1) x).take (i + 2) = l.take (i + 1) ++ [x] := by
  rw [insertIdx_eq_take_cons_drop x (i + 1) l h, List.take_append_eq_append_take]
  have hlen : (l.take (i + 1)).length = i + 1 := by simp [Nat.min_eq_left h]
  rw [List.take_of_length_le (by omega), hlen,
    show i + 2 - (i + 1) = 1 from by omega]
  simp

theorem sorted_fresh (dates : List Int) (i : Nat) (h : i + 1 < dates.length)
    (hs : List.Chain' (· ≤ ·) dates) (hgt : dates[i + 1] - dates[i] > 1) :
    ∀ v ∈ dates, v ≠ dates[i] + 1 := by
  intro v hv
  rcases List.mem_iff_getElem.1 hv with ⟨j, hj, rfl⟩
  have hpw := List.chain'_iff_pairwise.1 hs
  rcases Nat.lt_or_ge j (i + 1) with hji | hji
  · rcases Nat.lt_or_ge j i with hlt | hge
    · have := List.pairwise_iff_getElem.1 hpw j i (by omega) (by omega) hlt
      omega
    · have hj' : j = i := by omega
      subst hj'
      omega
  · rcases Nat.lt_or_ge (i + 1) j with hlt | hge
    · have := List.pairwise_iff_getElem.1 hpw (i + 1) j h hj hlt
      omega
    · have hj' : j = i + 1 := by omega
      subst hj'
      omega

theorem padLoop_main :
    ∀ (dates : List Int) (tls : List (Nat × List Cell)) (i : Nat),
      List.Chain' (· ≤ ·) dates →
      List.Chain' (fun a b => a ≤ b ∧ b - a ≤ 1) (dates.take (i + 1)) →
      List.Chain' (fun a b => a ≤ b ∧ b - a ≤ 1) (padLoop dates tls i).1 ∧
      List.Sublist dates (padLoop dates tls i).1 ∧
      (∀ v ∈ dates, (padLoop dates tls i).1.count v = dates.count v) := by
  intro dates tls i
  induction dates, tls, i using padLoop.induct with
  | case1 dates tls i h hgt ih =>
    intro hs hd
    rw [padLoop, dif_pos h, if_pos hgt]
    have hle : i + 1 ≤ dates.length := by omega
    have hdec : dates.insertIdx (i + 1) (dates[i] + 1)
        = dates.take (i + 1) ++ (dates[i] + 1) :: dates.drop (i + 1) :=
      insertIdx_eq_take_cons_drop _ _ _ hle
    have hs2 : List.Chain' (· ≤ ·) (dates.take (i + 1) ++ dates.drop (i + 1)) := by
      rw [List.take_append_drop]
      exact hs
    rcases List.chain'_append.1 hs2 with ⟨hC1, hC2, hlink⟩
    have hlast : (dates.take (i + 1)).getLast? = some dates[i] :=
      getLast_take dates i (by omega)
    have hheadd : (dates.drop (i + 1)).head? = some dates[i + 1] :=
      head_drop dates (i + 1) h
    have hs' : List.Chain' (· ≤ ·) (dates.insertIdx (i + 1) (dates[i] + 1)) := by
      rw [hdec]
      refine List.chain'_append.2 ⟨hC1, ?_, ?_⟩
      · refine (List.chain'_cons').2 ⟨?_, hC2⟩
        intro y hy
        rw [hheadd] at hy
        have hy' : dates[i + 1] = y := by simpa using hy
        omega
      · intro x hx y hy
        rw [hlast] at hx
        have hx' : dates[i] = x := by simpa using hx
        have hy' : dates[i] + 1 = y := by simpa using hy
        omega
    have hd' : List.Chain' (fun a b => a ≤ b ∧ b - a ≤ 1)
        ((dates.insertIdx (i + 1) (dates[i] + 1)).take (i + 2)) := by
      rw [take_insertIdx_succ dates i _ hle]
      refine List.chain'_append.2 ⟨hd, List.chain'_singleton _, ?_⟩
      intro x hx y hy
      rw [hlast] at hx
      have hx' : dates[i] = x := by simpa using hx
      have hy' : dates[i] + 1 = y := by simpa using hy
      constructor <;> omega
    rcases ih hs' hd' with ⟨ihchain, ihsub, ihcount⟩
    have hsub0 : List.Sublist dates (dates.insertIdx (i + 1) (dates[i] + 1)) := by
      rw [hdec]
      conv_lhs => rw [← List.take_append_drop (i + 1) dates]
      exact (List.sublist_cons_self _ _).append_left _
    refine ⟨ihchain, hsub0.trans ihsub, ?_⟩
    intro v hv
    have hv' : v ∈ dates.insertIdx (i + 1) (dates[i] + 1) := hsub0.mem hv
    rw [ihcount v hv']
    have hperm := List.perm_insertIdx (dates[i] + 1) dates hle
    rw [hperm.count_eq]
    have hne : ¬ ((dates[i] + 1) = v) := fun hh =>
      (sorted_fresh dates i h hs hgt v hv) hh.symm
    simp [List.count_cons, hne]
  | case2 dates tls i h hgt ih =>
    intro hs hd
    rw [padLoop, dif_pos h, if_neg hgt]
    have hadj : dates[i] ≤ dates[i + 1] :=
      List.pairwise_iff_getElem.1 (List.chain'_iff_pairwise.1 hs) i (i + 1)
        (by omega) h (by omega)
    have hd' : List.Chain' (fun a b => a ≤ b ∧ b - a ≤ 1) (dates.take (i + 2)) := by
      rw [take_succ_eq dates (i + 1) h]
      refine List.chain'_append.2 ⟨hd, List.chain'_singleton _, ?_⟩
      intro x hx y hy
      rw [getLast_take dates i (by omega)] at hx
      have hx' : dates[i] = x := by simpa using hx
      have hy' : dates[i + 1] = y := by simpa using hy
      constructor <;> omega
    exact ih hs hd'
  | case3 dates tls i h =>
    intro hs hd
    rw [padLoop, dif_neg h]
    refine ⟨?_, List.Sublist.refl dates, fun v _ => rfl⟩
    rwa [List.take_of_length_le (by omega)] at hd

theorem chain'_take_one (R : Int → Int → Prop) (l : List Int) :
    List.Chain' R (l.take 1) := by
  cases l <;> simp

/-- C2: for chronologically ordered input games, every adjacent pair of the
padded calendar consists of either an equal date (doubleheader) or dates one
day apart; in particular adjacent distinct dates always differ by exactly one
day, gaps of any size having been closed one day at a time. -/
theorem claim_C2 (games : List (Nat × Int × Nat)) (pitcher_games : List (Nat × List Cell))
    (hs : List.Chain' (· ≤ ·) (games.map (fun g => g.2.1))) :
    List.Chain' (fun a b => a = b ∨ b = a + 1) (pad_dates games pitcher_games).1 := by
  have h := (padLoop_main (games.map (fun g => g.2.1)) pitcher_games 0 hs
    (chain'_take_one _ _)).1
  exact h.imp (fun hab => by omega)

theorem claim_C2_witness :
    (List.Chain' (· ≤ ·) (([((1 : Nat), (0 : Int), (1 : Nat)), (2, 3, 1)] :
        List (Nat × Int × Nat)).map (fun g => g.2.1)) ∧
      List.Chain' (fun a b => a = b ∨ b = a + 1)
        (pad_dates [((1 : Nat), (0 : Int), (1 : Nat)), (2, 3, 1)] []).1) :=
  ⟨by norm_num [List.chain'_cons], claim_C2 [(1, 0, 1), (2, 3, 1)] []
    (by norm_num [List.chain'_cons])⟩

theorem sorted_count_two :
    ∀ (l : List Int) (a : Int), l.Pairwise (· ≤ ·) → l.count a = 2 →
      ∃ s t, l = s ++ a :: a :: t ∧ a ∉ s ∧ a ∉ t
  | [], a, _, hc => by simp at hc
  | x :: xs, a, hp, hc => by
    rcases List.pairwise_cons.1 hp with ⟨hx, hxs⟩
    by_cases hxa : x = a
    · subst hxa
      rw [List.count_cons_self] at hc
      have hc1 : xs.count x = 1 := by omega
      cases xs with
      | nil => simp at hc1
      | cons y ys =>
        by_cases hya : y = x
        · subst hya
          rw [List.count_cons_self] at hc1
          have hc0 : ys.count y = 0 := by omega
          exact ⟨[], ys, by simp, by simp, List.count_eq_zero.1 hc0⟩
        · exfalso
          have hxy : x ≤ y := hx y (by simp)
          have hmem : x ∈ ys := by
            have hm : x ∈ y :: ys := List.count_pos_iff.1 (by omega)
            rcases List.mem_cons.1 hm with h | h
            · exact absurd h.symm hya
            · exact h
          have hyx : y ≤ x := (List.pairwise_cons.1 hxs).1 x hmem
          exact hya (le_antisymm hyx hxy)
    · have hc2 : xs.count a = 2 := by
        rw [List.count_cons] at hc
        simpa [hxa] using hc
      rcases sorted_count_two xs a hxs hc2 with ⟨s, t, heq, hns, hnt⟩
      refine ⟨x :: s, t, by simp [heq], ?_, hnt⟩
      intro hmem
      rcases List.mem_cons.1 hmem with h | h
      · exact hxa h.symm
      · exact hns h

theorem getD_set_self (l : List String) (n : Nat) (v : String) (h : n < l.length) :
    (l.set n v).getD n "" = v := by
  simp [List.getD_eq_getElem?_getD, List.getElem?_set, h]

theorem getD_set_ne (l : List String) (n m : Nat) (v : String) (h : n ≠ m) :
    (l.set n v).getD m "" = l.getD m "" := by
  simp [List.getD_eq_getElem?_getD, List.getElem?_set, h]

theorem getD_map_fmt (o : List Int) (j : Nat) (h : j < o.length) :
    (o.map fmtDate).getD j "" = fmtDate (o.getD j 0) := by
  simp [List.getD_eq_getElem?_getD, List.getElem?_map, List.getElem?_eq_getElem h]

/-- The shape of the label at index `j` after the suffix loop has run its
iterations `0, …, bound - 1`: the formatted date, then `"(2)"` if the slot
duplicates its predecessor (and iteration `j - 1` has run), then `"(1)"` if
it duplicates its successor (and iteration `j` has run). -/
def labelForm (o : List Int) (j bound : Nat) : String :=
  (fmtDate (o.getD j 0) ++
    (if 1 ≤ j ∧ j ≤ bound ∧ o.getD (j - 1) 0 = o.getD j 0 then "(2)" else "")) ++
    (if j < bound ∧ j + 1 < o.length ∧ o.getD j 0 = o.getD (j + 1) 0 then "(1)" else "")


theorem labelLoop_done (o : List Int) (labels : List String) (i : Nat)
    (hi : ¬ i < labels.length) : labelLoop o labels i = labels := by
  rw [labelLoop, dif_neg hi]

theorem labelLoop_step_true (o : List Int) (labels : List String) (i : Nat)
    (hi : i < labels.length)
    (hc : i < o.length - 1 ∧ o.getD i 0 = o.getD (i + 1) 0) :
    labelLoop o labels i = labelLoop o
      ((labels.set i (labels.getD i "" ++ "(1)")).set (i + 1)
        ((labels.set i (labels.getD i "" ++ "(1)")).getD (i + 1) "" ++ "(2)")) (i + 1) := by
  rw [labelLoop, dif_pos hi, if_pos hc]

theorem labelLoop_step_false (o : List Int) (labels : List String) (i : Nat)
    (hi : i < labels.length)
    (hc : ¬ (i < o.length - 1 ∧ o.getD i 0 = o.getD (i + 1) 0)) :
    labelLoop o labels i = labelLoop o labels (i + 1) := by
  rw [labelLoop, dif_pos hi, if_neg hc]

theorem labelForm_congr (o : List Int) (j b1 b2 : Nat)
    (h2 : (1 ≤ j ∧ j ≤ b1 ∧ o.getD (j - 1) 0 = o.getD j 0) ↔
      (1 ≤ j ∧ j ≤ b2 ∧ o.getD (j - 1) 0 = o.getD j 0))
    (h1 : (j < b1 ∧ j + 1 < o.length ∧ o.getD j 0 = o.getD (j + 1) 0) ↔
      (j < b2 ∧ j + 1 < o.length ∧ o.getD j 0 = o.getD (j + 1) 0)) :
    labelForm o j b1 = labelForm o j b2 := by
  unfold labelForm
  rw [if_congr h2 rfl rfl, if_congr h1 rfl rfl]

theorem labelForm_high (o : List Int) (j i : Nat) (hj : j < o.length)
    (hi : o.length ≤ i) : labelForm o j i = labelForm o j o.length := by
  apply labelForm_congr
  · constructor
    · rintro ⟨u, v, w⟩
      exact ⟨u, by omega, w⟩
    · rintro ⟨u, v, w⟩
      exact ⟨u, by omega, w⟩
  · constructor
    · rintro ⟨u, v, w⟩
      exact ⟨by omega, v, w⟩
    · rintro ⟨u, v, w⟩
      exact ⟨by omega, v, w⟩

theorem labelForm_update_false (o : List Int) (i : Nat)
    (hc : ¬ (i < o.length - 1 ∧ o.getD i 0 = o.getD (i + 1) 0)) :
    ∀ j, j < o.length → labelForm o j i = labelForm o j (i + 1) := by
  intro j hj
  rcases Nat.lt_trichotomy j i with hji | rfl | hji
  · apply labelForm_congr
    · constructor
      · rintro ⟨u, v, w⟩
        exact ⟨u, by omega, w⟩
      · rintro ⟨u, v, w⟩
        exact ⟨u, by omega, w⟩
    · constructor
      · rintro ⟨u, v, w⟩
        exact ⟨by omega, v, w⟩
      · rintro ⟨u, v, w⟩
        exact ⟨by omega, v, w⟩
  · apply labelForm_congr
    · constructor
      · rintro ⟨u, v, w⟩
        exact ⟨u, by omega, w⟩
      · rintro ⟨u, v, w⟩
        exact ⟨u, by omega, w⟩
    · constructor
      · rintro ⟨u, v, w⟩
        omega
      · rintro ⟨u, v, w⟩
        exact absurd ⟨by omega, w⟩ hc
  · rcases Nat.lt_or_ge (i + 1) j with hj2 | hj2
    · apply labelForm_congr
      · constructor
        · rintro ⟨u, v, w⟩
          omega
        · rintro ⟨u, v, w⟩
          omega
      · constructor
        · rintro ⟨u, v, w⟩
          omega
        · rintro ⟨u, v, w⟩
          omega
    · have hje : j = i + 1 := by omega
      subst hje
      apply labelForm_congr
      · constructor
        · rintro ⟨u, v, w⟩
          omega
        · rintro ⟨u, v, w⟩
          rw [show i + 1 - 1 = i from rfl] at w
          exact absurd ⟨by omega, w⟩ hc
      · constructor
        · rintro ⟨u, v, w⟩
          omega
        · rintro ⟨u, v, w⟩
          omega

theorem labelForm_update_true (o : List Int) (labels : List String) (i : Nat)
    (hlen : labels.length = o.length)
    (hform : ∀ j, j < o.length → labels.getD j "" = labelForm o j i)
    (hc : i < o.length - 1 ∧ o.getD i 0 = o.getD (i + 1) 0) :
    ∀ j, j < o.length →
      ((labels.set i (labels.getD i "" ++ "(1)")).set (i + 1)
        ((labels.set i (labels.getD i "" ++ "(1)")).getD (i + 1) "" ++ "(2)")).getD j ""
      = labelForm o j (i + 1) := by
  intro j hj
  have hi : i < o.length := by omega
  have hi1 : i + 1 < o.length := by omega
  rcases Nat.lt_trichotomy j i with hji | rfl | hji
  · -- untouched positions below i
    rw [getD_set_ne _ _ _ _ (by omega), getD_set_ne _ _ _ _ (by omega), hform j hj]
    apply labelForm_congr
    · constructor
      · rintro ⟨u, v, w⟩
        exact ⟨u, by omega, w⟩
      · rintro ⟨u, v, w⟩
        exact ⟨u, by omega, w⟩
    · constructor
      · rintro ⟨u, v, w⟩
        exact ⟨by omega, v, w⟩
      · rintro ⟨u, v, w⟩
        exact ⟨by omega, v, w⟩
  · -- position i gains "(1)" (here the index variables have been identified)
    rw [getD_set_ne _ _ _ _ (by omega), getD_set_self _ _ _ (by omega), hform j hj]
    unfold labelForm
    rw [if_neg (show ¬ (j < j ∧ j + 1 < o.length ∧ o.getD j 0 = o.getD (j + 1) 0) from
        fun hh => by omega),
      if_pos (show j < j + 1 ∧ j + 1 < o.length ∧ o.getD j 0 = o.getD (j + 1) 0 from
        ⟨by omega, hi1, hc.2⟩),
      if_congr (show (1 ≤ j ∧ j ≤ j ∧ o.getD (j - 1) 0 = o.getD j 0) ↔
          (1 ≤ j ∧ j ≤ j + 1 ∧ o.getD (j - 1) 0 = o.getD j 0) from
        ⟨fun hh => ⟨hh.1, by omega, hh.2.2⟩, fun hh => ⟨hh.1, by omega, hh.2.2⟩⟩) rfl rfl]
    simp
  · rcases Nat.lt_or_ge (i + 1) j with hj2 | hj2
    · -- untouched positions above i + 1
      rw [getD_set_ne _ _ _ _ (by omega), getD_set_ne _ _ _ _ (by omega), hform j hj]
      apply labelForm_congr
      · constructor
        · rintro ⟨u, v, w⟩
          omega
        · rintro ⟨u, v, w⟩
          omega
      · constructor
        · rintro ⟨u, v, w⟩
          omega
        · rintro ⟨u, v, w⟩
          omega
    · -- position i + 1 gains "(2)"
      have hje : j = i + 1 := by omega
      subst hje
      rw [getD_set_self _ _ _ (by simp only [List.length_set]; omega),
        getD_set_ne _ _ _ _ (by omega), hform (i + 1) hi1]
      unfold labelForm
      rw [if_neg (show ¬ (1 ≤ i + 1 ∧ i + 1 ≤ i ∧
            o.getD (i + 1 - 1) 0 = o.getD (i + 1) 0) from fun hh => by omega),
        if_neg (show ¬ (i + 1 < i ∧ i + 1 + 1 < o.length ∧
            o.getD (i + 1) 0 = o.getD (i + 1 + 1) 0) from fun hh => by omega),
        if_pos (show 1 ≤ i + 1 ∧ i + 1 ≤ i + 1 ∧
            o.getD (i + 1 - 1) 0 = o.getD (i + 1) 0 from
          ⟨by omega, by omega, by rw [show i + 1 - 1 = i from rfl]; exact hc.2⟩),
        if_neg (show ¬ (i + 1 < i + 1 ∧ i + 1 + 1 < o.length ∧
            o.getD (i + 1) 0 = o.getD (i + 1 + 1) 0) from fun hh => by omega)]
      simp

theorem labelLoop_form (o : List Int) :
    ∀ (n : Nat) (labels : List String) (i : Nat), labels.length - i ≤ n →
      labels.length = o.length →
      (∀ j, j < o.length → labels.getD j "" = labelForm o j i) →
      ∀ j, j < o.length →
        (labelLoop o labels i).getD j "" = labelForm o j o.length := by
  intro n
  induction n with
  | zero =>
    intro labels i hn hlen hform j hj
    rw [labelLoop_done o labels i (by omega), hform j hj]
    exact labelForm_high o j i hj (by omega)
  | succ n ih =>
    intro labels i hn hlen hform j hj
    by_cases hi : i < labels.length
    · by_cases hc : i < o.length - 1 ∧ o.getD i 0 = o.getD (i + 1) 0
      · rw [labelLoop_step_true o labels i hi hc]
        refine ih _ (i + 1) (by simp only [List.length_set]; omega) (by simp only [List.length_set]; exact hlen) ?_ j hj
        exact labelForm_update_true o labels i hlen hform hc
      · rw [labelLoop_step_false o labels i hi hc]
        refine ih labels (i + 1) (by omega) hlen ?_ j hj
        intro j1 hj1
        rw [hform j1 hj1]
        exact labelForm_update_false o i hc j1 hj1
    · rw [labelLoop_done o labels i hi, hform j hj]
      exact labelForm_high o j i hj (by omega)

theorem label_dates_form (o : List Int) (j : Nat) (hj : j < o.length) :
    (label_dates o).getD j "" = labelForm o j o.length := by
  refine labelLoop_form o (o.map fmtDate).length (o.map fmtDate) 0 (by omega)
    (by simp) ?_ j hj
  intro j1 hj1
  rw [getD_map_fmt o j1 hj1]
  unfold labelForm
  rw [if_neg (show ¬ (1 ≤ j1 ∧ j1 ≤ 0 ∧ o.getD (j1 - 1) 0 = o.getD j1 0) from
      fun hh => by omega),
    if_neg (show ¬ (j1 < 0 ∧ j1 + 1 < o.length ∧ o.getD j1 0 = o.getD (j1 + 1) 0) from
      fun hh => by omega)]
  simp

/-- C7: with chronologically ordered games, a date carried by exactly two
games (a doubleheader) never has a gap slot inserted between its two games:
the game dates embed in order into the padded calendar, the two equal-date
slots sit at adjacent indices, and at presentation those two slots are
labelled with the `"(1)"` and `"(2)"` suffixes respectively. -/
theorem claim_C7 (games : List (Nat × Int × Nat))
    (pitcher_games : List (Nat × List Cell)) (a : Int)
    (hs : List.Chain' (· ≤ ·) (games.map (fun g => g.2.1)))
    (hcount : (games.map (fun g => g.2.1)).count a = 2) :
    List.Sublist (games.map (fun g => g.2.1)) (pad_dates games pitcher_games).1 ∧
    ∃ j, j + 1 < (pad_dates games pitcher_games).1.length ∧
      (pad_dates games pitcher_games).1.getD j 0 = a ∧
      (pad_dates games pitcher_games).1.getD (j + 1) 0 = a ∧
      (label_dates (pad_dates games pitcher_games).1).getD j "" =
        fmtDate a ++ "(1)" ∧
      (label_dates (pad_dates games pitcher_games).1).getD (j + 1) "" =
        fmtDate a ++ "(2)" := by
  rcases padLoop_main (games.map (fun g => g.2.1)) pitcher_games 0 hs
    (chain'_take_one _ _) with ⟨hdense, hsub, hcnt⟩
  simp only [pad_dates]
  set o := (padLoop (games.map (fun g => g.2.1)) pitcher_games 0).1 with ho
  have hsorted : o.Pairwise (· ≤ ·) :=
    List.chain'_iff_pairwise.1 (hdense.imp (fun {a b} hab => hab.1))
  have hmem : a ∈ games.map (fun g => g.2.1) := List.count_pos_iff.1 (by omega)
  have hcnto : o.count a = 2 := by
    rw [hcnt a hmem]
    exact hcount
  rcases sorted_count_two o a hsorted hcnto with ⟨s, t, hdecomp, hns, hnt⟩
  have hlen : o.length = s.length + t.length + 2 := by
    rw [hdecomp]
    simp only [List.length_append, List.length_cons]
    omega
  have hoj : o.getD s.length 0 = a := by
    rw [hdecomp, List.getD_eq_getElem?_getD, List.getElem?_append,
      if_neg (by omega), Nat.sub_self]
    simp
  have hoj1 : o.getD (s.length + 1) 0 = a := by
    rw [hdecomp, List.getD_eq_getElem?_getD, List.getElem?_append,
      if_neg (by omega), show s.length + 1 - s.length = 1 from by omega]
    simp
  have hprev : 1 ≤ s.length → o.getD (s.length - 1) 0 ≠ a := by
    intro hj0
    rw [hdecomp, List.getD_eq_getElem?_getD, List.getElem?_append,
      if_pos (by omega), List.getElem?_eq_getElem (show s.length - 1 < s.length by omega)]
    have hsmem : s[s.length - 1] ∈ s := s.getElem_mem _
    simp only [Option.getD_some]
    exact fun heq => hns (heq ▸ hsmem)
  have hnext : s.length + 2 < o.length → o.getD (s.length + 2) 0 ≠ a := by
    intro hj2
    rw [hdecomp, List.getD_eq_getElem?_getD, List.getElem?_append,
      if_neg (by omega), show s.length + 2 - s.length = 2 from by omega]
    cases t with
    | nil =>
      simp only [List.length_nil] at hlen
      omega
    | cons b bs =>
      rw [show (a :: a :: b :: bs : List Int)[2]? = some b from by simp]
      have hbmem : b ∈ b :: bs := by simp
      simp only [Option.getD_some]
      exact fun heq => hnt (heq ▸ hbmem)
  have hl1 : (label_dates o).getD s.length "" = fmtDate a ++ "(1)" := by
    rw [label_dates_form o s.length (by omega)]
    unfold labelForm
    rw [if_neg (show ¬ (1 ≤ s.length ∧ s.length ≤ o.length ∧
          o.getD (s.length - 1) 0 = o.getD s.length 0) from ?_),
      if_pos (show s.length < o.length ∧ s.length + 1 < o.length ∧
          o.getD s.length 0 = o.getD (s.length + 1) 0 from
        ⟨by omega, by omega, by rw [hoj, hoj1]⟩),
      hoj]
    · simp
    · rintro ⟨h1, _, h3⟩
      rw [hoj] at h3
      exact hprev h1 h3
  have hl2 : (label_dates o).getD (s.length + 1) "" = fmtDate a ++ "(2)" := by
    rw [label_dates_form o (s.length + 1) (by omega)]
    unfold labelForm
    rw [if_pos (show 1 ≤ s.length + 1 ∧ s.length + 1 ≤ o.length ∧
          o.getD (s.length + 1 - 1) 0 = o.getD (s.length + 1) 0 from
        ⟨by omega, by omega, by
          rw [show s.length + 1 - 1 = s.length from rfl, hoj, hoj1]⟩),
      if_neg (show ¬ (s.length + 1 < o.length ∧ s.length + 1 + 1 < o.length ∧
          o.getD (s.length + 1) 0 = o.getD (s.length + 1 + 1) 0) from ?_),
      hoj1]
    · simp
    · rintro ⟨_, h2, h3⟩
      rw [hoj1] at h3
      exact hnext (by omega) (by
        rw [show s.length + 2 = s.length + 1 + 1 from rfl]
        exact h3.symm)
  exact ⟨hsub, s.length, by omega, hoj, hoj1, hl1, hl2⟩

theorem claim_C7_witness :
    ((List.Chain' (· ≤ ·) (([((1 : Nat), (0 : Int), (1 : Nat)), (2, 1, 1), (3, 1, 2),
          (4, 2, 1)] : List (Nat × Int × Nat)).map (fun g => g.2.1)) ∧
      (([((1 : Nat), (0 : Int), (1 : Nat)), (2, 1, 1), (3, 1, 2), (4, 2, 1)] :
          List (Nat × Int × Nat)).map (fun g => g.2.1)).count 1 = 2) ∧
      (List.Sublist (([((1 : Nat), (0 : Int), (1 : Nat)), (2, 1, 1), (3, 1, 2),
            (4, 2, 1)] : List (Nat × Int × Nat)).map (fun g => g.2.1))
          (pad_dates [(1, 0, 1), (2, 1, 1), (3, 1, 2), (4, 2, 1)] []).1 ∧
        ∃ j, j + 1 < (pad_dates [(1, 0, 1), (2, 1, 1), (3, 1, 2), (4, 2, 1)] []).1.length ∧
          (pad_dates [(1, 0, 1), (2, 1, 1), (3, 1, 2), (4, 2, 1)] []).1.getD j 0 = 1 ∧
          (pad_dates [(1, 0, 1), (2, 1, 1), (3, 1, 2), (4, 2, 1)] []).1.getD (j + 1) 0 = 1 ∧
          (label_dates (pad_dates [(1, 0, 1), (2, 1, 1), (3, 1, 2), (4, 2, 1)] []).1).getD
              j "" = fmtDate 1 ++ "(1)" ∧
          (label_dates (pad_dates [(1, 0, 1), (2, 1, 1), (3, 1, 2), (4, 2, 1)] []).1).getD
              (j + 1) "" = fmtDate 1 ++ "(2)")) :=
  ⟨⟨by norm_num [List.chain'_cons], by decide⟩,
    claim_C7 [(1, 0, 1), (2, 1, 1), (3, 1, 2), (4, 2, 1)] [] 1
      (by norm_num [List.chain'_cons]) (by decide)⟩

end Bullpen
